import Mathlib

/-!
Shallow embedding of `src/generate_results.py`.

The script is a read → transform → groupby-aggregate → format pipeline:

* `run` globs result files, loads each as a table, and concatenates them;
  an empty glob result short-circuits with a warning (lines 37-41).
* A sigmoid is applied to the `predictions` column of rows whose `model`
  is one of `eegnet`, `lstm`, `uercm` (lines 50-53).
* Rows are grouped by `(seed, user, model, strategy, reading_task)` and five
  binary-classification metrics (mcc, kappa, precision, recall, auc) are
  computed per group, then merged on the key columns (lines 56-95).
* For every model and every strategy (strategies in reverse of first-seen
  order) the mean and sample standard deviation of auc, precision and recall
  are logged together with LaTeX fragments (lines 97-111).

Floating-point values are modelled as real numbers.  The metric and
aggregation primitives live in external libraries (torchmetrics, pandas)
whose sources are not part of this repository; they are modelled from the
specification's description of their contracts (standard binary metrics at
threshold 0.5, NaN-as-undefined, pandas first-seen `unique`, NaN-skipping
mean and sample standard deviation).  `NaN` is modelled as `Option.none`.
-/

namespace GenerateResults

/-- One row of the loaded predictions table: the five grouping columns plus
the `predictions` score and the binary `targets` label. -/
structure Row where
  seed : Int
  user : String
  model : String
  strategy : String
  reading_task : String
  predictions : ℝ
  targets : ℝ

/-- The five-field grouping key `(seed, user, model, strategy, reading_task)`
used by `results.groupby` on line 56-57. -/
structure GroupKey where
  seed : Int
  user : String
  model : String
  strategy : String
  reading_task : String
  deriving DecidableEq

/-- The grouping key of a row. -/
def rowKey (r : Row) : GroupKey :=
  ⟨r.seed, r.user, r.model, r.strategy, r.reading_task⟩

/-- The fixed allow-list of logit-producing models from line 50:
`results['model'].isin(['eegnet', 'lstm', 'uercm'])`. -/
def allowList : List String := ["eegnet", "lstm", "uercm"]

/-- Modelled from the spec: `torch.nn.Sigmoid`, `sigmoid(x) = 1/(1+e^-x)`. -/
noncomputable def sigmoid (x : ℝ) : ℝ := 1 / (1 + Real.exp (-x))

/-- The normalization step of lines 50-53: rows whose `model` is in the
allow-list get `sigmoid` applied to `predictions`; all other rows pass
through untouched. -/
noncomputable def normalizeRow (r : Row) : Row :=
  if r.model ∈ allowList then
    { r with predictions := sigmoid r.predictions }
  else r

/-- The in-place update of the `predictions` column (lines 50-53), as a
row-wise map over the whole table. -/
noncomputable def normalize (t : List Row) : List Row := t.map normalizeRow

/-- Predicted-positive count with actual label 1 (true positives).
Modelled from the spec: the torchmetrics binary metrics binarize the
predictions at the default decision threshold 0.5. -/
noncomputable def tpC (g : List Row) : ℕ :=
  g.countP fun r => decide ((1 : ℝ) / 2 < r.predictions ∧ r.targets = 1)

/-- False-positive count: predicted positive, actual label 0. -/
noncomputable def fpC (g : List Row) : ℕ :=
  g.countP fun r => decide ((1 : ℝ) / 2 < r.predictions ∧ r.targets = 0)

/-- False-negative count: predicted negative, actual label 1. -/
noncomputable def fnC (g : List Row) : ℕ :=
  g.countP fun r => decide (¬ ((1 : ℝ) / 2 < r.predictions) ∧ r.targets = 1)

/-- True-negative count: predicted negative, actual label 0. -/
noncomputable def tnC (g : List Row) : ℕ :=
  g.countP fun r => decide (¬ ((1 : ℝ) / 2 < r.predictions) ∧ r.targets = 0)

/-- Modelled from the spec: `BinaryPrecision` (line 69-73), the standard
binary precision `TP/(TP+FP)` at threshold 0.5; undefined (NaN) when the
denominator vanishes. -/
noncomputable def precisionVal (g : List Row) : Option ℝ :=
  if tpC g + fpC g = 0 then none
  else some ((tpC g : ℝ) / ((tpC g : ℝ) + (fpC g : ℝ)))

/-- Modelled from the spec: `BinaryRecall` (line 75-79), the standard binary
recall `TP/(TP+FN)` at threshold 0.5; undefined (NaN) when the denominator
vanishes. -/
noncomputable def recallVal (g : List Row) : Option ℝ :=
  if tpC g + fnC g = 0 then none
  else some ((tpC g : ℝ) / ((tpC g : ℝ) + (fnC g : ℝ)))

/-- Modelled from the spec: `BinaryCohenKappa` (line 63-66), Cohen's kappa
`(po - pe)/(1 - pe)` over the binarized confusion matrix; undefined (NaN)
on an empty group or when the chance agreement `pe` equals 1. -/
noncomputable def kappaVal (g : List Row) : Option ℝ :=
  let a := tpC g
  let b := fpC g
  let c := fnC g
  let d := tnC g
  let n := a + b + c + d
  if n = 0 then none
  else
    let po : ℝ := ((a : ℝ) + (d : ℝ)) / (n : ℝ)
    let pe : ℝ := (((a + b) * (a + c) + (c + d) * (b + d) : ℕ) : ℝ) / ((n : ℝ) * (n : ℝ))
    if pe = 1 then none else some ((po - pe) / (1 - pe))

/-- Modelled from the spec: `BinaryMatthewsCorrCoef` (line 58-61), the
Matthews correlation coefficient
`(TP*TN - FP*FN) / sqrt((TP+FP)(TP+FN)(TN+FP)(TN+FN))` over the binarized
confusion matrix; undefined (NaN) when the radicand vanishes. -/
noncomputable def mccVal (g : List Row) : Option ℝ :=
  let a := tpC g
  let b := fpC g
  let c := fnC g
  let d := tnC g
  let D := (a + b) * (a + c) * ((d + b) * (d + c))
  if D = 0 then none
  else some (((a : ℝ) * (d : ℝ) - (b : ℝ) * (c : ℝ)) / Real.sqrt (D : ℝ))

/-- Score of one (positive, negative) prediction pair in the rank-based
AUROC: 1 for a correctly ordered pair, 1/2 for a tie, 0 otherwise. -/
noncomputable def pairScore (p q : ℝ) : ℝ :=
  if q < p then 1 else if p = q then 1 / 2 else 0

/-- Sum of the pair scores of all (positive, negative) prediction pairs. -/
noncomputable def pairScoreSum (ps ns : List ℝ) : ℝ :=
  (ps.map fun p => (ns.map fun q => pairScore p q).sum).sum

/-- Prediction scores of the rows with target label 1. -/
noncomputable def posPreds (g : List Row) : List ℝ :=
  (g.filter fun r => decide (r.targets = 1)).map fun r => r.predictions

/-- Prediction scores of the rows with target label 0. -/
noncomputable def negPreds (g : List Row) : List ℝ :=
  (g.filter fun r => decide (r.targets = 0)).map fun r => r.predictions

/-- Modelled from the spec: `BinaryAUROC` (line 81-85), the area under the
ROC curve in its rank-based (Mann-Whitney) form; it requires both classes
in the group and is undefined (NaN) otherwise. -/
noncomputable def aucVal (g : List Row) : Option ℝ :=
  if (posPreds g).length * (negPreds g).length = 0 then none
  else some (pairScoreSum (posPreds g) (negPreds g) /
    (((posPreds g).length : ℝ) * ((negPreds g).length : ℝ)))

/-- Lexicographic image of a `GroupKey`, used to model the sorted group
order of `results.groupby` (pandas sorts the group keys). -/
def toLex5 (k : GroupKey) :
    Int ×ₗ (String ×ₗ (String ×ₗ (String ×ₗ String))) :=
  toLex (k.seed, toLex (k.user, toLex (k.model, toLex (k.strategy, k.reading_task))))

/-- Lexicographic comparison of grouping keys. -/
def keyLE (k j : GroupKey) : Prop := toLex5 k ≤ toLex5 j

instance : DecidableRel keyLE := fun k j =>
  inferInstanceAs (Decidable (toLex5 k ≤ toLex5 j))

/-- Sorted list of group keys, modelling pandas' sorted group order. -/
def sortKeys (ks : List GroupKey) : List GroupKey := ks.insertionSort keyLE

/-- The distinct grouping keys of the table, in pandas' sorted group order
(`results.groupby` on lines 56-57 enumerates each distinct key once,
sorted). -/
def groupKeys (rows : List Row) : List GroupKey :=
  sortKeys (rows.map rowKey).dedup

/-- The sub-table of rows belonging to one group, in original row order. -/
def groupRows (rows : List Row) (k : GroupKey) : List Row :=
  rows.filter fun r => decide (rowKey r = k)

/-- One per-metric result table: `groups.apply(metric).reset_index()`
applies the metric to every group's sub-table and yields one row per
group key. -/
def metricTable {β : Type} (f : List Row → β) (rows : List Row) :
    List (GroupKey × β) :=
  (groupKeys rows).map fun k => (k, f (groupRows rows k))

/-- First value stored under a key, modelling the key-equality match of
`DataFrame.merge`. -/
def lookupKey {β : Type} : List (GroupKey × β) → GroupKey → Option β
  | [], _ => none
  | p :: t, k => if p.1 = k then some p.2 else lookupKey t k

/-- Modelled from the spec: `DataFrame.merge` on the five key columns, an
inner join — every left row is matched with the right row carrying the same
key and dropped when none exists. -/
def mergeT {β γ : Type} (t1 : List (GroupKey × β)) (t2 : List (GroupKey × γ)) :
    List (GroupKey × β × γ) :=
  t1.filterMap fun p => (lookupKey t2 p.1).map fun c => (p.1, p.2, c)

/-- One row of the merged metrics table: the group key plus the five metric
scalars (NaN modelled as `none`). -/
structure MetricRow where
  key : GroupKey
  mcc : Option ℝ
  kappa : Option ℝ
  precision : Option ℝ
  «recall» : Option ℝ
  auc : Option ℝ

/-- The merged metrics table of lines 56-95: the five per-metric tables are
inner-joined on the key columns in the source's order
(mcc ⋈ precision ⋈ kappa ⋈ recall ⋈ auc). -/
noncomputable def metricsTable (rows : List Row) : List MetricRow :=
  (mergeT (mergeT (mergeT (mergeT (metricTable mccVal rows)
        (metricTable precisionVal rows))
      (metricTable kappaVal rows))
    (metricTable recallVal rows))
  (metricTable aucVal rows)).map fun p =>
    { key := p.1, mcc := p.2.1.1.1.1, precision := p.2.1.1.1.2,
      kappa := p.2.1.1.2, «recall» := p.2.1.2, auc := p.2.2 }

/-- Modelled from the spec: pandas `Series.unique`, the distinct values in
first-seen order. -/
def uniqueFirst {α : Type} [DecidableEq α] : List α → List α
  | [] => []
  | a :: l => a :: (uniqueFirst l).filter fun x => decide (x ≠ a)

/-- Modelled from the spec: pandas `Series.mean` with its default NaN
skipping; NaN (`none`) when no value remains. -/
noncomputable def pmean (xs : List (Option ℝ)) : Option ℝ :=
  let v := xs.reduceOption
  if v.length = 0 then none else some (v.sum / (v.length : ℝ))

/-- Modelled from the spec: pandas `Series.std`, the sample standard
deviation (ddof = 1) over the non-NaN values; NaN (`none`) when fewer than
two values remain. -/
noncomputable def pstd (xs : List (Option ℝ)) : Option ℝ :=
  let v := xs.reduceOption
  if v.length < 2 then none
  else some (Real.sqrt
    ((v.map fun x => (x - v.sum / (v.length : ℝ)) ^ 2).sum / ((v.length : ℝ) - 1)))

/-- One reported summary cell: the log line `metric: mean +- std` and the
LaTeX fragment `& mean (std)` of lines 108-109, kept structurally. -/
structure ReportEntry where
  model : String
  strategy : String
  metricName : String
  mean : Option ℝ
  std : Option ℝ

/-- The metric columns the report loop of line 101 iterates:
`['auc', 'precision', 'recall']`, each with its column accessor. -/
def metricCols : List (String × (MetricRow → Option ℝ)) :=
  [("auc", MetricRow.auc), ("precision", MetricRow.precision),
   ("recall", MetricRow.«recall»)]

/-- The sub-table selection
`metrics[(metrics['model'] == model) & (metrics['strategy'] == strategy)]`
of lines 102-107. -/
def subsetFor (ms : List MetricRow) (m s : String) : List MetricRow :=
  ms.filter fun r => decide (r.key.model = m ∧ r.key.strategy = s)

/-- The three summary cells emitted for one (model, strategy) pair
(lines 101-109). -/
noncomputable def reportFor (ms : List MetricRow) (m s : String) :
    List ReportEntry :=
  metricCols.map fun c =>
    { model := m, strategy := s, metricName := c.1,
      mean := pmean ((subsetFor ms m s).map c.2),
      std := pstd ((subsetFor ms m s).map c.2) }

/-- `metrics.model.unique()` of line 97: the distinct models in first-seen
order of the merged table. -/
def modelsOf (ms : List MetricRow) : List String :=
  uniqueFirst (ms.map fun r => r.key.model)

/-- `metrics.strategy.unique()` of line 99: the distinct strategies in
first-seen order of the merged table. -/
def strategiesOf (ms : List MetricRow) : List String :=
  uniqueFirst (ms.map fun r => r.key.strategy)

/-- The full report of lines 97-111: for every model (first-seen order) and
every strategy (first-seen order reversed, line 99's `unique()[::-1]`), the
three summary cells. -/
noncomputable def reporter (ms : List MetricRow) : List ReportEntry :=
  (modelsOf ms).flatMap fun m =>
    ((strategiesOf ms).reverse).flatMap fun s => reportFor ms m s

/-- Observable outcome of one `run` invocation: warning lines, per-file
read log lines, and the (optional, absent on the empty-glob short circuit)
loaded table, normalized table, merged metrics table and report. -/
structure RunResult where
  warnings : List String
  readLogs : List String
  loaded : Option (List Row)
  normalized : Option (List Row)
  metrics : Option (List MetricRow)
  report : Option (List ReportEntry)

/-- The `run` function (lines 35-111) on the already-globbed file list:
each input is a (filepath, table content) pair.  An empty file list logs a
warning and returns early (lines 39-41); otherwise the tables are
concatenated, normalized, aggregated and reported. -/
noncomputable def run (files : List (String × List Row)) : RunResult :=
  match files with
  | [] =>
    { warnings := ["No files found. Quitting..."], readLogs := [],
      loaded := none, normalized := none, metrics := none, report := none }
  | f :: fs =>
    let rows := ((f :: fs).map fun p => p.2).flatten
    let table := normalize rows
    let ms := metricsTable table
    { warnings := [],
      readLogs := (f :: fs).map fun p => "Reading " ++ p.1,
      loaded := some rows, normalized := some table,
      metrics := some ms, report := some (reporter ms) }

/-- The thresholded predictions of the group fall into one class only:
all predicted positive, or all predicted negative. -/
def singlePredClass (g : List Row) : Prop :=
  (∀ r ∈ g, (1 : ℝ) / 2 < r.predictions) ∨ (∀ r ∈ g, ¬ ((1 : ℝ) / 2 < r.predictions))

/-- The target labels of the group fall into one class only. -/
def singleTargetClass (g : List Row) : Prop :=
  (∀ r ∈ g, r.targets = 1) ∨ (∀ r ∈ g, r.targets = 0)

/-- The spec's metric-determinism example group: predictions
[0.9, 0.2, 0.8, 0.1] against targets [1, 0, 1, 0]. -/
noncomputable def detGroup : List Row :=
  [⟨1, "u1", "eegnet", "A", "w", 0.9, 1⟩,
   ⟨1, "u1", "eegnet", "A", "w", 0.2, 0⟩,
   ⟨1, "u1", "eegnet", "A", "w", 0.8, 1⟩,
   ⟨1, "u1", "eegnet", "A", "w", 0.1, 0⟩]

/-- A group holding both target classes on which the thresholded
predictions are all negative, so precision has an empty denominator. -/
noncomputable def degGroup : List Row :=
  [⟨1, "u1", "eegnet", "A", "w", 0.1, 1⟩,
   ⟨1, "u1", "eegnet", "A", "w", 0.2, 0⟩]

/-- Metric rows realising the spec's report-aggregation example: model
"eegnet", strategy "A", auc values 0.8, 0.9 and 1.0 across three seeds. -/
noncomputable def exampleTable : List MetricRow :=
  [{ key := ⟨1, "u1", "eegnet", "A", "w"⟩, mcc := none, kappa := none,
     precision := none, «recall» := none, auc := some 0.8 },
   { key := ⟨2, "u1", "eegnet", "A", "w"⟩, mcc := none, kappa := none,
     precision := none, «recall» := none, auc := some 0.9 },
   { key := ⟨3, "u1", "eegnet", "A", "w"⟩, mcc := none, kappa := none,
     precision := none, «recall» := none, auc := some 1.0 }]

/-- A merged table in which strategy "B" occurs, but never together with
model "m1". -/
def crossTable : List MetricRow :=
  [{ key := ⟨1, "u1", "m1", "A", "w"⟩, mcc := none, kappa := none,
     precision := none, «recall» := none, auc := none },
   { key := ⟨1, "u1", "m2", "B", "w"⟩, mcc := none, kappa := none,
     precision := none, «recall» := none, auc := none }]

/-- A one-row input file used to witness permutation invariance. -/
noncomputable def fileA : String × List Row :=
  ("w_relevance_seed1.pkl", [⟨1, "u1", "eegnet", "A", "w", 0.9, 1⟩])

/-- A second one-row input file used to witness permutation invariance. -/
noncomputable def fileB : String × List Row :=
  ("w_relevance_seed2.pkl", [⟨2, "u2", "lstm", "B", "w", 0.3, 0⟩])

/-- Claim C3: an empty glob result logs the warning and returns early,
with no loading, no normalization, no metric computation and no report. -/
theorem claim_C3_empty_input :
    run [] = { warnings := ["No files found. Quitting..."], readLogs := [],
               loaded := none, normalized := none, metrics := none,
               report := none } := rfl

/-- Claim C2: rows whose model is in the fixed three-element allow-list get
`predictions` replaced by `sigmoid(predictions) = 1/(1+e^-x)`, a value in
(0, 1); rows with any other model keep their `predictions` unchanged. -/
theorem claim_C2_sigmoid_normalizer (r : Row) :
    allowList = ["eegnet", "lstm", "uercm"] ∧ allowList.length = 3
    ∧ (r.model ∈ allowList →
        (normalizeRow r).predictions = 1 / (1 + Real.exp (-r.predictions))
        ∧ 0 < (normalizeRow r).predictions
        ∧ (normalizeRow r).predictions < 1)
    ∧ (r.model ∉ allowList → (normalizeRow r).predictions = r.predictions) := by
  refine ⟨rfl, rfl, ?_, ?_⟩
  · intro hmem
    have hpred : (normalizeRow r).predictions = 1 / (1 + Real.exp (-r.predictions)) := by
      simp [normalizeRow, hmem, sigmoid]
    have hden : (0 : ℝ) < 1 + Real.exp (-r.predictions) := by
      have := Real.exp_pos (-r.predictions)
      linarith
    refine ⟨hpred, ?_, ?_⟩
    · rw [hpred]
      exact div_pos one_pos hden
    · rw [hpred, div_lt_one hden]
      have := Real.exp_pos (-r.predictions)
      linarith
  · intro hmem
    simp [normalizeRow, hmem]

/-- Witness for claim C2 at concrete rows with models "eegnet" (in the
allow-list) and "svm" (outside it). -/
theorem claim_C2_witness :
    ((normalizeRow ⟨1, "u1", "eegnet", "A", "w", 0, 1⟩).predictions
        = 1 / (1 + Real.exp (-(0 : ℝ)))
      ∧ 0 < (normalizeRow ⟨1, "u1", "eegnet", "A", "w", 0, 1⟩).predictions
      ∧ (normalizeRow ⟨1, "u1", "eegnet", "A", "w", 0, 1⟩).predictions < 1)
    ∧ (normalizeRow ⟨1, "u1", "svm", "A", "w", 0, 1⟩).predictions = 0 :=
  ⟨(claim_C2_sigmoid_normalizer ⟨1, "u1", "eegnet", "A", "w", 0, 1⟩).2.2.1
      (by decide),
   (claim_C2_sigmoid_normalizer ⟨1, "u1", "svm", "A", "w", 0, 1⟩).2.2.2
      (by decide)⟩

/-- Claim C7: normalization only ever writes the `predictions` field —
every other field of every row is preserved, rows with a model outside the
allow-list are left entirely unchanged, and the table-level step is exactly
the row-wise map (so no other rows are added, dropped or reordered). -/
theorem claim_C7_normalizer_frame (r : Row) (t : List Row) :
    (r.model ∉ allowList → normalizeRow r = r)
    ∧ (normalizeRow r).seed = r.seed
    ∧ (normalizeRow r).user = r.user
    ∧ (normalizeRow r).model = r.model
    ∧ (normalizeRow r).strategy = r.strategy
    ∧ (normalizeRow r).reading_task = r.reading_task
    ∧ (normalizeRow r).targets = r.targets
    ∧ normalize t = t.map normalizeRow
    ∧ (normalize t).map (fun x => x.targets) = t.map (fun x => x.targets) := by
  have hfields : (normalizeRow r).seed = r.seed ∧ (normalizeRow r).user = r.user
      ∧ (normalizeRow r).model = r.model ∧ (normalizeRow r).strategy = r.strategy
      ∧ (normalizeRow r).reading_task = r.reading_task
      ∧ (normalizeRow r).targets = r.targets := by
    unfold normalizeRow
    by_cases hmem : r.model ∈ allowList <;> simp [hmem]
  refine ⟨fun hmem => by simp [normalizeRow, hmem], hfields.1, hfields.2.1,
    hfields.2.2.1, hfields.2.2.2.1, hfields.2.2.2.2.1, hfields.2.2.2.2.2, rfl, ?_⟩
  rw [normalize, List.map_map]
  exact List.map_congr_left fun a _ => by
    unfold Function.comp normalizeRow
    by_cases hmem : a.model ∈ allowList <;> simp [hmem]

/-- Witness for claim C7 at a concrete row with model "svm". -/
theorem claim_C7_witness :
    normalizeRow ⟨1, "u1", "svm", "A", "w", 0.40, 1⟩
      = ⟨1, "u1", "svm", "A", "w", 0.40, 1⟩ :=
  (claim_C7_normalizer_frame ⟨1, "u1", "svm", "A", "w", 0.40, 1⟩ []).1 (by decide)

/-- Looking a key up in a table whose value column is a function of the key
column returns that function's value. -/
theorem lookupKey_map_self {β : Type} (g : GroupKey → β) :
    ∀ (ks : List GroupKey) (k : GroupKey), k ∈ ks →
      lookupKey (ks.map fun j => (j, g j)) k = some (g k) := by
  intro ks
  induction ks with
  | nil => intro k hk; cases hk
  | cons j ks ih =>
    intro k hk
    by_cases hj : j = k
    · subst hj; simp [lookupKey]
    · have hk2 : k ∈ ks := by
        rcases List.mem_cons.mp hk with h | h
        · exact absurd h.symm hj
        · exact h
      simp [lookupKey, hj, ih k hk2]

/-- Inner join of two tables whose value columns are functions of the key
column, the left table ranging over a subset of the right table's keys:
the join simply pairs the two value columns along the left key column. -/
theorem mergeT_map_map {β γ : Type} (f : GroupKey → β) (g : GroupKey → γ)
    (ks0 : List GroupKey) (ks : List GroupKey) (hsub : ∀ k ∈ ks, k ∈ ks0) :
    mergeT (ks.map fun k => (k, f k)) (ks0.map fun j => (j, g j)) =
      ks.map fun k => (k, f k, g k) := by
  induction ks with
  | nil => rfl
  | cons k ks ih =>
    have hmem : k ∈ ks0 := hsub k (List.mem_cons_self k ks)
    have ht := ih fun j hj => hsub j (List.mem_cons_of_mem k hj)
    simp only [mergeT, List.map_cons, List.filterMap_cons] at ht ⊢
    rw [lookupKey_map_self g ks0 k hmem]
    simp only [Option.map_some']
    rw [ht]

/-- The merged metrics table is the group-key list paired with the five
per-group metric values: the four inner joins of lines 88-95 recombine the
five per-metric tables without dropping or duplicating any group. -/
theorem metricsTable_eq (rows : List Row) :
    metricsTable rows = (groupKeys rows).map fun k =>
      { key := k, mcc := mccVal (groupRows rows k),
        kappa := kappaVal (groupRows rows k),
        precision := precisionVal (groupRows rows k),
        «recall» := recallVal (groupRows rows k),
        auc := aucVal (groupRows rows k) } := by
  have hid : ∀ k ∈ groupKeys rows, k ∈ groupKeys rows := fun k hk => hk
  unfold metricsTable metricTable
  rw [mergeT_map_map (fun k => mccVal (groupRows rows k))
    (fun k => precisionVal (groupRows rows k)) _ _ hid]
  rw [mergeT_map_map (fun k => (mccVal (groupRows rows k),
    precisionVal (groupRows rows k)))
    (fun k => kappaVal (groupRows rows k)) _ _ hid]
  rw [mergeT_map_map (fun k => ((mccVal (groupRows rows k),
    precisionVal (groupRows rows k)), kappaVal (groupRows rows k)))
    (fun k => recallVal (groupRows rows k)) _ _ hid]
  rw [mergeT_map_map (fun k => (((mccVal (groupRows rows k),
    precisionVal (groupRows rows k)), kappaVal (groupRows rows k)),
    recallVal (groupRows rows k)))
    (fun k => aucVal (groupRows rows k)) _ _ hid]
  rw [List.map_map]
  rfl

/-- Claim C1: for a non-empty table, the aggregator partitions the rows by
the five-field group key, computes every metric only from the rows of its
own group, and the merged table has exactly one row per distinct observed
group key with all five metric columns populated. -/
theorem claim_C1_grouping_and_merge (rows : List Row) (hne : rows ≠ []) :
    metricsTable rows ≠ []
    ∧ (metricsTable rows).map (fun mr => mr.key) = groupKeys rows
    ∧ (groupKeys rows).Nodup
    ∧ (∀ k, k ∈ groupKeys rows ↔ k ∈ rows.map rowKey)
    ∧ ∀ mr ∈ metricsTable rows,
        groupRows rows mr.key = rows.filter (fun r => decide (rowKey r = mr.key))
        ∧ mr.mcc = mccVal (groupRows rows mr.key)
        ∧ mr.kappa = kappaVal (groupRows rows mr.key)
        ∧ mr.precision = precisionVal (groupRows rows mr.key)
        ∧ mr.«recall» = recallVal (groupRows rows mr.key)
        ∧ mr.auc = aucVal (groupRows rows mr.key) := by
  have hperm : List.Perm (groupKeys rows) (rows.map rowKey).dedup :=
    List.perm_insertionSort keyLE _
  have hmem : ∀ k, k ∈ groupKeys rows ↔ k ∈ rows.map rowKey := by
    intro k
    exact (hperm.mem_iff).trans (List.mem_dedup)
  have hkeys : (metricsTable rows).map (fun mr => mr.key) = groupKeys rows := by
    rw [metricsTable_eq, List.map_map]
    exact List.map_id _
  refine ⟨?_, hkeys, hperm.nodup_iff.mpr (List.nodup_dedup _), hmem, ?_⟩
  · intro hcon
    obtain ⟨r, rs, rfl⟩ := List.exists_cons_of_ne_nil hne
    have hk : rowKey r ∈ groupKeys (r :: rs) := by
      rw [hmem]
      exact List.mem_map_of_mem rowKey (List.mem_cons_self r rs)
    rw [← hkeys] at hk
    rw [hcon] at hk
    cases hk
  · intro mr hmr
    rw [metricsTable_eq] at hmr
    obtain ⟨k, hk, rfl⟩ := List.mem_map.mp hmr
    exact ⟨rfl, rfl, rfl, rfl, rfl, rfl⟩

/-- Witness for claim C1 at the concrete four-row table `detGroup`. -/
theorem claim_C1_witness : metricsTable detGroup ≠ [] :=
  (claim_C1_grouping_and_merge detGroup (by simp [detGroup])).1

/-- Membership in the first-seen deduplication is membership in the list. -/
theorem mem_uniqueFirst {α : Type} [DecidableEq α] (a : α) :
    ∀ l : List α, a ∈ uniqueFirst l ↔ a ∈ l := by
  intro l
  induction l with
  | nil => exact Iff.rfl
  | cons b l ih =>
    simp only [uniqueFirst, List.mem_cons, List.mem_filter, ih,
      decide_eq_true_eq]
    by_cases hab : a = b <;> simp [hab]

/-- The first-seen deduplication lists its elements in strictly increasing
order of first occurrence (pandas `unique` keeps first-seen order). -/
theorem pairwise_uniqueFirst {α : Type} [DecidableEq α] :
    ∀ l : List α,
      (uniqueFirst l).Pairwise fun a b => l.indexOf a < l.indexOf b := by
  intro l
  induction l with
  | nil => exact List.Pairwise.nil
  | cons c l ih =>
    have hfil : ((uniqueFirst l).filter fun x => decide (x ≠ c)).Pairwise
        (fun a b => l.indexOf a < l.indexOf b) :=
      List.Pairwise.sublist (List.filter_sublist _) ih
    refine List.Pairwise.cons ?_ ?_
    · intro b hb
      have hbc : b ≠ c := by
        have := (List.mem_filter.mp hb).2
        simpa using this
      rw [List.indexOf_cons_ne l (Ne.symm hbc), List.indexOf_cons_self]
      exact Nat.succ_pos _
    · refine hfil.imp_of_mem ?_
      intro a b ha hb hab
      have hac : a ≠ c := by
        have := (List.mem_filter.mp ha).2
        simpa using this
      have hbc : b ≠ c := by
        have := (List.mem_filter.mp hb).2
        simpa using this
      rw [List.indexOf_cons_ne l (Ne.symm hac), List.indexOf_cons_ne l (Ne.symm hbc)]
      exact Nat.succ_lt_succ hab

/-- Claim C5: the reporter iterates, for every model, the strategy values
in the reverse of the whole merged table's first-seen strategy order — the
iteration list is exactly `strategiesOf ms` reversed, where `strategiesOf`
enumerates each strategy of the table once, ordered by first occurrence. -/
theorem claim_C5_strategy_iteration (ms : List MetricRow) :
    reporter ms = (modelsOf ms).flatMap (fun m =>
        ((strategiesOf ms).reverse).flatMap fun s => reportFor ms m s)
    ∧ (∀ s, s ∈ strategiesOf ms ↔ s ∈ ms.map fun r => r.key.strategy)
    ∧ (strategiesOf ms).Pairwise (fun a b =>
        (ms.map fun r => r.key.strategy).indexOf a
          < (ms.map fun r => r.key.strategy).indexOf b)
    ∧ (strategiesOf ms).Nodup := by
  refine ⟨rfl, fun s => mem_uniqueFirst s _, pairwise_uniqueFirst _, ?_⟩
  have hp := pairwise_uniqueFirst (ms.map fun r => r.key.strategy)
  exact List.Pairwise.imp (fun h => by
    intro heq
    rw [heq] at h
    exact Nat.lt_irrefl _ h) hp

/-- Claim C4: for every model and strategy the reporter emits exactly the
three metrics auc, precision and recall (never mcc or kappa), each with the
mean and the sample standard deviation of that metric's column over the
matching sub-table; on the spec's example (auc values 0.8, 0.9, 1.0) the
reported mean is 0.9 and the sample standard deviation is 0.1. -/
theorem claim_C4_report_aggregation (ms : List MetricRow) (m s : String) :
    (reportFor ms m s).map (fun e => e.metricName) = ["auc", "precision", "recall"]
    ∧ reportFor ms m s =
      [⟨m, s, "auc", pmean ((subsetFor ms m s).map MetricRow.auc),
         pstd ((subsetFor ms m s).map MetricRow.auc)⟩,
       ⟨m, s, "precision", pmean ((subsetFor ms m s).map MetricRow.precision),
         pstd ((subsetFor ms m s).map MetricRow.precision)⟩,
       ⟨m, s, "recall", pmean ((subsetFor ms m s).map MetricRow.«recall»),
         pstd ((subsetFor ms m s).map MetricRow.«recall»)⟩]
    ∧ reportFor exampleTable "eegnet" "A" =
      [⟨"eegnet", "A", "auc", some 0.9, some 0.1⟩,
       ⟨"eegnet", "A", "precision", none, none⟩,
       ⟨"eegnet", "A", "recall", none, none⟩] := by
  refine ⟨rfl, rfl, ?_⟩
  have hsub : subsetFor exampleTable "eegnet" "A" = exampleTable := by
    simp [subsetFor, exampleTable]
  rw [reportFor, metricCols, hsub]
  have hauc : exampleTable.map MetricRow.auc = [some 0.8, some 0.9, some 1.0] := by
    simp [exampleTable]
  have hprec : exampleTable.map MetricRow.precision = [none, none, none] := by
    simp [exampleTable]
  have hrec : exampleTable.map MetricRow.«recall» = [none, none, none] := by
    simp [exampleTable]
  simp only [List.map_cons, List.map_nil, hauc, hprec, hrec]
  have hro : ([some 0.8, some 0.9, some 1.0] : List (Option ℝ)).reduceOption
      = [0.8, 0.9, 1.0] := by
    simp [List.reduceOption]
  have hmean : pmean [some 0.8, some 0.9, some 1.0] = some 0.9 := by
    rw [pmean, hro]
    rw [if_neg (by norm_num)]
    norm_num
  have hstd : pstd [some 0.8, some 0.9, some 1.0] = some 0.1 := by
    rw [pstd, hro]
    rw [if_neg (by norm_num)]
    have harg : ((([0.8, 0.9, 1.0] : List ℝ).map fun x =>
        (x - ([0.8, 0.9, 1.0] : List ℝ).sum / (([0.8, 0.9, 1.0] : List ℝ).length : ℝ)) ^ 2).sum
        / ((([0.8, 0.9, 1.0] : List ℝ).length : ℝ) - 1)) = (0.1 : ℝ) ^ 2 := by
      norm_num
    rw [harg, Real.sqrt_sq (by norm_num)]
  have hnone : pmean ([none, none, none] : List (Option ℝ)) = none := by
    rw [pmean]
    simp [List.reduceOption]
  have hnstd : pstd ([none, none, none] : List (Option ℝ)) = none := by
    rw [pstd]
    simp [List.reduceOption]
  simp [hmean, hstd, hnone, hnstd]

/-- Claim C9: when a strategy occurs in the merged table but never with a
given model, the reporter still emits the three cells for that (model,
strategy) pair — with NaN mean and NaN standard deviation — instead of
skipping the pair. -/
theorem claim_C9_empty_pair (ms : List MetricRow) (m s : String)
    (hm : m ∈ modelsOf ms) (hs : s ∈ strategiesOf ms)
    (hnone : ∀ r ∈ ms, ¬ (r.key.model = m ∧ r.key.strategy = s)) :
    reportFor ms m s =
      [⟨m, s, "auc", none, none⟩, ⟨m, s, "precision", none, none⟩,
       ⟨m, s, "recall", none, none⟩]
    ∧ ∀ e ∈ reportFor ms m s, e ∈ reporter ms := by
  have hsub : subsetFor ms m s = [] := by
    rw [subsetFor, List.filter_eq_nil_iff]
    intro r hr
    simpa using hnone r hr
  constructor
  · rw [reportFor, metricCols, hsub]
    simp [pmean, pstd, List.reduceOption]
  · intro e he
    rw [reporter, List.mem_flatMap]
    refine ⟨m, hm, ?_⟩
    rw [List.mem_flatMap]
    exact ⟨s, List.mem_reverse.mpr hs, he⟩

/-- Witness for claim C9 on the concrete table `crossTable`, at the pair
(model "m1", strategy "B") which never occurs together. -/
theorem claim_C9_witness :
    reportFor crossTable "m1" "B" =
      [⟨"m1", "B", "auc", none, none⟩, ⟨"m1", "B", "precision", none, none⟩,
       ⟨"m1", "B", "recall", none, none⟩] :=
  (claim_C9_empty_pair crossTable "m1" "B" (by decide) (by decide)
    (by decide)).1

/-- Claim C6: on the group with predictions [0.9, 0.2, 0.8, 0.1] and
targets [1, 0, 1, 0], precision and recall at threshold 0.5 are both 1 and
the AUROC is 1. -/
theorem claim_C6_metric_determinism :
    precisionVal detGroup = some 1 ∧ recallVal detGroup = some 1
    ∧ aucVal detGroup = some 1 := by
  have htp : tpC detGroup = 2 := by
    rw [tpC, detGroup]
    simp only [List.countP_cons, List.countP_nil, decide_eq_true_eq]
    norm_num
  have hfp : fpC detGroup = 0 := by
    rw [fpC, detGroup]
    simp only [List.countP_cons, List.countP_nil, decide_eq_true_eq]
    norm_num
  have hfn : fnC detGroup = 0 := by
    rw [fnC, detGroup]
    simp only [List.countP_cons, List.countP_nil, decide_eq_true_eq]
    norm_num
  have hpos : posPreds detGroup = [0.9, 0.8] := by
    rw [posPreds, detGroup]
    simp only [List.filter, decide_eq_true_eq]
    norm_num
  have hneg : negPreds detGroup = [0.2, 0.1] := by
    rw [negPreds, detGroup]
    simp only [List.filter, decide_eq_true_eq]
    norm_num
  refine ⟨?_, ?_, ?_⟩
  · rw [precisionVal, htp, hfp]
    norm_num
  · rw [recallVal, htp, hfn]
    norm_num
  · rw [aucVal, hpos, hneg]
    rw [if_neg (by norm_num)]
    rw [pairScoreSum]
    simp only [List.map_cons, List.map_nil, List.sum_cons, List.sum_nil]
    rw [pairScore, pairScore, pairScore, pairScore]
    norm_num

/-- Head step of the true-positive count. -/
theorem tpC_cons (r : Row) (g : List Row) :
    tpC (r :: g) = tpC g
      + if (1 : ℝ) / 2 < r.predictions ∧ r.targets = 1 then 1 else 0 := by
  rw [tpC, tpC, List.countP_cons]
  by_cases h : (1 : ℝ) / 2 < r.predictions ∧ r.targets = 1 <;> simp [h]

/-- Head step of the false-positive count. -/
theorem fpC_cons (r : Row) (g : List Row) :
    fpC (r :: g) = fpC g
      + if (1 : ℝ) / 2 < r.predictions ∧ r.targets = 0 then 1 else 0 := by
  rw [fpC, fpC, List.countP_cons]
  by_cases h : (1 : ℝ) / 2 < r.predictions ∧ r.targets = 0 <;> simp [h]

/-- Head step of the false-negative count. -/
theorem fnC_cons (r : Row) (g : List Row) :
    fnC (r :: g) = fnC g
      + if ¬ ((1 : ℝ) / 2 < r.predictions) ∧ r.targets = 1 then 1 else 0 := by
  rw [fnC, fnC, List.countP_cons]
  by_cases h : ¬ ((1 : ℝ) / 2 < r.predictions) ∧ r.targets = 1 <;> simp [h]

/-- Head step of the true-negative count. -/
theorem tnC_cons (r : Row) (g : List Row) :
    tnC (r :: g) = tnC g
      + if ¬ ((1 : ℝ) / 2 < r.predictions) ∧ r.targets = 0 then 1 else 0 := by
  rw [tnC, tnC, List.countP_cons]
  by_cases h : ¬ ((1 : ℝ) / 2 < r.predictions) ∧ r.targets = 0 <;> simp [h]

/-- With binary targets every row lands in exactly one confusion-matrix
cell, so the four counts sum to the group size. -/
theorem counts_sum (g : List Row) (ht : ∀ r ∈ g, r.targets = 0 ∨ r.targets = 1) :
    tpC g + fpC g + fnC g + tnC g = g.length := by
  induction g with
  | nil => rfl
  | cons r g ih =>
    have hr := ht r (List.mem_cons_self r g)
    have ih2 := ih fun x hx => ht x (List.mem_cons_of_mem r hx)
    rw [tpC_cons, fpC_cons, fnC_cons, tnC_cons, List.length_cons]
    by_cases hp : (1 : ℝ) / 2 < r.predictions <;> rcases hr with h | h <;>
      simp only [hp, h, zero_ne_one, one_ne_zero, and_true, and_false,
        not_true, not_false_iff, true_and, false_and, if_true, if_false,
        not_not, if_neg, ite_true, ite_false] <;>
      norm_num <;> omega

/-- The rows with target label 1 are counted by the `tp` and `fn` cells. -/
theorem countP_target_one (g : List Row) :
    g.countP (fun r => decide (r.targets = 1)) = tpC g + fnC g := by
  induction g with
  | nil => rfl
  | cons r g ih =>
    rw [List.countP_cons, tpC_cons, fnC_cons, ih]
    by_cases h1 : r.targets = 1
    · by_cases hp : (1 : ℝ) / 2 < r.predictions
      · rw [if_pos (by simp [h1]), if_pos ⟨hp, h1⟩,
          if_neg (fun hc => hc.1 hp)]
        omega
      · rw [if_pos (by simp [h1]), if_neg (fun hc => hp hc.1),
          if_pos ⟨hp, h1⟩]
        omega
    · rw [if_neg (by simp [h1]), if_neg (fun hc => h1 hc.2),
        if_neg (fun hc => h1 hc.2)]
      omega

/-- The rows with target label 0 are counted by the `fp` and `tn` cells. -/
theorem countP_target_zero (g : List Row) :
    g.countP (fun r => decide (r.targets = 0)) = fpC g + tnC g := by
  induction g with
  | nil => rfl
  | cons r g ih =>
    rw [List.countP_cons, fpC_cons, tnC_cons, ih]
    by_cases h0 : r.targets = 0
    · by_cases hp : (1 : ℝ) / 2 < r.predictions
      · rw [if_pos (by simp [h0]), if_pos ⟨hp, h0⟩,
          if_neg (fun hc => hc.1 hp)]
        omega
      · rw [if_pos (by simp [h0]), if_neg (fun hc => hp hc.1),
          if_pos ⟨hp, h0⟩]
        omega
    · rw [if_neg (by simp [h0]), if_neg (fun hc => h0 hc.2),
        if_neg (fun hc => h0 hc.2)]
      omega

/-- Positive-class prediction count equals `tp + fn`. -/
theorem posPreds_length (g : List Row) :
    (posPreds g).length = tpC g + fnC g := by
  rw [posPreds, List.length_map, ← List.countP_eq_length_filter, countP_target_one]

/-- Negative-class prediction count equals `fp + tn`. -/
theorem negPreds_length (g : List Row) :
    (negPreds g).length = fpC g + tnC g := by
  rw [negPreds, List.length_map, ← List.countP_eq_length_filter, countP_target_zero]

/-- If both predicted-positive cells are empty, no prediction clears the
threshold. -/
theorem no_pos_preds (g : List Row) (ht : ∀ r ∈ g, r.targets = 0 ∨ r.targets = 1)
    (h1 : tpC g = 0) (h2 : fpC g = 0) :
    ∀ r ∈ g, ¬ ((1 : ℝ) / 2 < r.predictions) := by
  intro r hr hp
  rcases ht r hr with h | h
  · have hc := List.countP_eq_zero.mp h2 r hr
    simp only [decide_eq_true_eq] at hc
    exact hc ⟨hp, h⟩
  · have hc := List.countP_eq_zero.mp h1 r hr
    simp only [decide_eq_true_eq] at hc
    exact hc ⟨hp, h⟩

/-- If both predicted-negative cells are empty, every prediction clears the
threshold. -/
theorem no_neg_preds (g : List Row) (ht : ∀ r ∈ g, r.targets = 0 ∨ r.targets = 1)
    (h1 : fnC g = 0) (h2 : tnC g = 0) :
    ∀ r ∈ g, (1 : ℝ) / 2 < r.predictions := by
  intro r hr
  by_contra hp
  rcases ht r hr with h | h
  · have hc := List.countP_eq_zero.mp h2 r hr
    simp only [decide_eq_true_eq] at hc
    exact hc ⟨hp, h⟩
  · have hc := List.countP_eq_zero.mp h1 r hr
    simp only [decide_eq_true_eq] at hc
    exact hc ⟨hp, h⟩

/-- If both actual-positive cells are empty, every target label is 0. -/
theorem no_pos_targets (g : List Row) (ht : ∀ r ∈ g, r.targets = 0 ∨ r.targets = 1)
    (h1 : tpC g = 0) (h2 : fnC g = 0) :
    ∀ r ∈ g, r.targets = 0 := by
  intro r hr
  rcases ht r hr with h | h
  · exact h
  · by_cases hp : (1 : ℝ) / 2 < r.predictions
    · have hc := List.countP_eq_zero.mp h1 r hr
      simp only [decide_eq_true_eq] at hc
      exact absurd ⟨hp, h⟩ hc
    · have hc := List.countP_eq_zero.mp h2 r hr
      simp only [decide_eq_true_eq] at hc
      exact absurd ⟨hp, h⟩ hc

/-- If both actual-negative cells are empty, every target label is 1. -/
theorem no_neg_targets (g : List Row) (ht : ∀ r ∈ g, r.targets = 0 ∨ r.targets = 1)
    (h1 : fpC g = 0) (h2 : tnC g = 0) :
    ∀ r ∈ g, r.targets = 1 := by
  intro r hr
  rcases ht r hr with h | h
  · by_cases hp : (1 : ℝ) / 2 < r.predictions
    · have hc := List.countP_eq_zero.mp h1 r hr
      simp only [decide_eq_true_eq] at hc
      exact absurd ⟨hp, h⟩ hc
    · have hc := List.countP_eq_zero.mp h2 r hr
      simp only [decide_eq_true_eq] at hc
      exact absurd ⟨hp, h⟩ hc
  · exact h

/-- A pair score is nonnegative. -/
theorem pairScore_nonneg (p q : ℝ) : 0 ≤ pairScore p q := by
  rw [pairScore]
  by_cases h1 : q < p
  · simp [h1]
  · by_cases h2 : p = q <;> norm_num [h1, h2]

/-- A pair score is at most one. -/
theorem pairScore_le_one (p q : ℝ) : pairScore p q ≤ 1 := by
  rw [pairScore]
  by_cases h1 : q < p
  · simp [h1]
  · by_cases h2 : p = q <;> norm_num [h1, h2]

/-- The total pair score is nonnegative. -/
theorem pairScoreSum_nonneg (ps ns : List ℝ) : 0 ≤ pairScoreSum ps ns := by
  rw [pairScoreSum]
  refine List.sum_nonneg ?_
  intro x hx
  obtain ⟨p, _, rfl⟩ := List.mem_map.mp hx
  refine List.sum_nonneg ?_
  intro y hy
  obtain ⟨q, _, rfl⟩ := List.mem_map.mp hy
  exact pairScore_nonneg p q

/-- The total pair score is at most the number of pairs. -/
theorem pairScoreSum_le (ps ns : List ℝ) :
    pairScoreSum ps ns ≤ (ps.length : ℝ) * (ns.length : ℝ) := by
  rw [pairScoreSum]
  have hin : ∀ p : ℝ, ((ns.map fun q => pairScore p q).sum) ≤ (ns.length : ℝ) := by
    intro p
    have := List.sum_le_card_nsmul (ns.map fun q => pairScore p q) 1 ?_
    · simpa [List.length_map, nsmul_eq_mul] using this
    · intro x hx
      obtain ⟨q, _, rfl⟩ := List.mem_map.mp hx
      exact pairScore_le_one p q
  have := List.sum_le_card_nsmul
    (ps.map fun p => (ns.map fun q => pairScore p q).sum) ((ns.length : ℝ)) ?_
  · simpa [List.length_map, nsmul_eq_mul] using this
  · intro x hx
    obtain ⟨p, _, rfl⟩ := List.mem_map.mp hx
    exact hin p

/-- Cauchy-Schwarz-style bound for the MCC numerator against its radicand. -/
theorem mcc_key (A B C D : ℝ) (hA : 0 ≤ A) (hB : 0 ≤ B) (hC : 0 ≤ C)
    (hD : 0 ≤ D) : (A * D - B * C) ^ 2 ≤ (A + B) * (A + C) * ((D + B) * (D + C)) := by
  have hid : (A + B) * (A + C) * ((D + B) * (D + C)) - (A * D - B * C) ^ 2
      = (A * D + B * C) * (A * B + A * C + B * D + C * D)
        + (A * C + B * D) * (A * B + C * D) + 4 * (A * B * C * D) := by
    ring
  have t1 : 0 ≤ (A * D + B * C) * (A * B + A * C + B * D + C * D) :=
    mul_nonneg (add_nonneg (mul_nonneg hA hD) (mul_nonneg hB hC))
      (add_nonneg (add_nonneg (add_nonneg (mul_nonneg hA hB) (mul_nonneg hA hC))
        (mul_nonneg hB hD)) (mul_nonneg hC hD))
  have t2 : 0 ≤ (A * C + B * D) * (A * B + C * D) :=
    mul_nonneg (add_nonneg (mul_nonneg hA hC) (mul_nonneg hB hD))
      (add_nonneg (mul_nonneg hA hB) (mul_nonneg hC hD))
  have t3 : 0 ≤ 4 * (A * B * C * D) := by
    have := mul_nonneg (mul_nonneg (mul_nonneg hA hB) hC) hD
    linarith [this]
  linarith

/-- A defined Matthews correlation coefficient lies in [-1, 1]. -/
theorem mcc_bound (g : List Row) (v : ℝ) (hv : mccVal g = some v) :
    -1 ≤ v ∧ v ≤ 1 := by
  simp only [mccVal] at hv
  split at hv
  · exact absurd hv (by simp)
  next hcond =>
    have hv2 := Option.some_inj.mp hv
    subst hv2
    have hDpos : (0 : ℝ) <
        (((tpC g + fpC g) * (tpC g + fnC g) * ((tnC g + fpC g) * (tnC g + fnC g)) : ℕ) : ℝ) := by
      exact_mod_cast Nat.pos_of_ne_zero hcond
    have hsq : 0 < Real.sqrt
        (((tpC g + fpC g) * (tpC g + fnC g) * ((tnC g + fpC g) * (tnC g + fnC g)) : ℕ) : ℝ) :=
      Real.sqrt_pos.mpr hDpos
    have hkey : ((tpC g : ℝ) * (tnC g : ℝ) - (fpC g : ℝ) * (fnC g : ℝ)) ^ 2 ≤
        (((tpC g + fpC g) * (tpC g + fnC g) * ((tnC g + fpC g) * (tnC g + fnC g)) : ℕ) : ℝ) := by
      push_cast
      exact mcc_key (tpC g : ℝ) (fpC g : ℝ) (fnC g : ℝ) (tnC g : ℝ)
        (Nat.cast_nonneg _) (Nat.cast_nonneg _) (Nat.cast_nonneg _) (Nat.cast_nonneg _)
    have hub : |((tpC g : ℝ) * (tnC g : ℝ) - (fpC g : ℝ) * (fnC g : ℝ)) /
        Real.sqrt (((tpC g + fpC g) * (tpC g + fnC g) *
          ((tnC g + fpC g) * (tnC g + fnC g)) : ℕ) : ℝ)| ≤ 1 := by
      rw [abs_div, abs_of_nonneg (Real.sqrt_nonneg _), div_le_one hsq]
      exact Real.abs_le_sqrt hkey
    exact abs_le.mp hub

/-- A defined Cohen's kappa lies in [-1, 1]. -/
theorem kappa_bound (g : List Row) (v : ℝ) (hv : kappaVal g = some v) :
    -1 ≤ v ∧ v ≤ 1 := by
  simp only [kappaVal] at hv
  split at hv
  · exact absurd hv (by simp)
  next hn =>
    split at hv
    next hpe => exact absurd hv (by simp)
    next hpe =>
      have hv2 := Option.some_inj.mp hv
      subst hv2
      have hA : (0 : ℝ) ≤ (tpC g : ℝ) := Nat.cast_nonneg _
      have hB : (0 : ℝ) ≤ (fpC g : ℝ) := Nat.cast_nonneg _
      have hC : (0 : ℝ) ≤ (fnC g : ℝ) := Nat.cast_nonneg _
      have hD : (0 : ℝ) ≤ (tnC g : ℝ) := Nat.cast_nonneg _
      have hN : (0 : ℝ) < ((tpC g + fpC g + fnC g + tnC g : ℕ) : ℝ) := by
        exact_mod_cast Nat.pos_of_ne_zero hn
      have hNcast : ((tpC g + fpC g + fnC g + tnC g : ℕ) : ℝ)
          = (tpC g : ℝ) + (fpC g : ℝ) + (fnC g : ℝ) + (tnC g : ℝ) := by
        push_cast
        ring
      have hXcast : (((tpC g + fpC g) * (tpC g + fnC g)
            + (fnC g + tnC g) * (fpC g + tnC g) : ℕ) : ℝ)
          = ((tpC g : ℝ) + (fpC g : ℝ)) * ((tpC g : ℝ) + (fnC g : ℝ))
            + ((fnC g : ℝ) + (tnC g : ℝ)) * ((fpC g : ℝ) + (tnC g : ℝ)) := by
        push_cast
        ring
      set A := (tpC g : ℝ) with hAdef
      set B := (fpC g : ℝ) with hBdef
      set C := (fnC g : ℝ) with hCdef
      set D := (tnC g : ℝ) with hDdef
      set N := ((tpC g + fpC g + fnC g + tnC g : ℕ) : ℝ) with hNdef
      set X := (((tpC g + fpC g) * (tpC g + fnC g)
        + (fnC g + tnC g) * (fpC g + tnC g) : ℕ) : ℝ) with hXdef
      have hXle : X / (N * N) ≤ 1 := by
        rw [div_le_one (mul_pos hN hN)]
        have hid : N * N = X + ((A + B) * (B + D) + (C + D) * (A + C)) := by
          rw [hNcast, hXcast]
          ring
        have t1 : 0 ≤ (A + B) * (B + D) :=
          mul_nonneg (add_nonneg hA hB) (add_nonneg hB hD)
        have t2 : 0 ≤ (C + D) * (A + C) :=
          mul_nonneg (add_nonneg hC hD) (add_nonneg hA hC)
        linarith
      have hpelt : X / (N * N) < 1 := lt_of_le_of_ne hXle hpe
      have h1pe : 0 < 1 - X / (N * N) := by linarith
      have hpoN : (A + D) / N * N = A + D := div_mul_cancel₀ _ (ne_of_gt hN)
      have hpeNN : X / (N * N) * (N * N) = X :=
        div_mul_cancel₀ _ (ne_of_gt (mul_pos hN hN))
      constructor
      · rw [le_div_iff₀ h1pe]
        have h2X : 2 * X ≤ (A + D) * N + N * N := by
          rw [hNcast, hXcast]
          have hid3 : (A + D) * (A + B + C + D) + (A + B + C + D) * (A + B + C + D)
              - 2 * ((A + B) * (A + C) + (C + D) * (B + D))
              = (B - C) ^ 2 + A * B + B * D + A * C + C * D + 4 * (A * D) := by
            ring
          have t1 : 0 ≤ (B - C) ^ 2 := sq_nonneg _
          have t2 : 0 ≤ A * B := mul_nonneg hA hB
          have t3 : 0 ≤ B * D := mul_nonneg hB hD
          have t4 : 0 ≤ A * C := mul_nonneg hA hC
          have t5 : 0 ≤ C * D := mul_nonneg hC hD
          have t6 : 0 ≤ A * D := mul_nonneg hA hD
          linarith
        have hkey2 : ((A + D) / N + 1 - 2 * (X / (N * N))) * (N * N)
            = (A + D) * N + N * N - 2 * X := by
          have hpoNN : (A + D) / N * (N * N) = (A + D) * N := by
            calc (A + D) / N * (N * N) = ((A + D) / N * N) * N := by ring
            _ = (A + D) * N := by rw [hpoN]
          calc ((A + D) / N + 1 - 2 * (X / (N * N))) * (N * N)
              = (A + D) / N * (N * N) + N * N - 2 * (X / (N * N) * (N * N)) := by ring
          _ = (A + D) * N + N * N - 2 * X := by rw [hpoNN, hpeNN]
        have hprod : 0 ≤ ((A + D) / N + 1 - 2 * (X / (N * N))) * (N * N) := by
          rw [hkey2]
          linarith
        nlinarith [hprod, mul_pos hN hN]
      · rw [div_le_one h1pe]
        have hpole : (A + D) / N ≤ 1 := by
          rw [div_le_one hN, hNcast]
          linarith
        linarith

/-- Claim C8 (amended): with binary targets, every defined metric value
lies in its natural range (mcc and kappa in [-1, 1]; precision, recall and
auc in [0, 1]), and a metric is NaN only when the group's targets, or its
thresholded predictions, fall into a single class. -/
theorem claim_C8_metric_ranges (g : List Row) (hne : g ≠ [])
    (ht : ∀ r ∈ g, r.targets = 0 ∨ r.targets = 1) :
    (∀ v, mccVal g = some v → -1 ≤ v ∧ v ≤ 1)
    ∧ (mccVal g = none → singlePredClass g ∨ singleTargetClass g)
    ∧ (∀ v, kappaVal g = some v → -1 ≤ v ∧ v ≤ 1)
    ∧ (kappaVal g = none → singleTargetClass g)
    ∧ (∀ v, precisionVal g = some v → 0 ≤ v ∧ v ≤ 1)
    ∧ (precisionVal g = none → singlePredClass g)
    ∧ (∀ v, recallVal g = some v → 0 ≤ v ∧ v ≤ 1)
    ∧ (recallVal g = none → singleTargetClass g)
    ∧ (∀ v, aucVal g = some v → 0 ≤ v ∧ v ≤ 1)
    ∧ (aucVal g = none → singleTargetClass g) := by
  have hlen : g.length ≠ 0 := fun h => hne (List.length_eq_zero.mp h)
  refine ⟨fun v hv => mcc_bound g v hv, ?_, fun v hv => kappa_bound g v hv,
    ?_, ?_, ?_, ?_, ?_, ?_, ?_⟩
  · intro h
    simp only [mccVal] at h
    split at h
    next hD =>
      rcases Nat.mul_eq_zero.mp hD with h12 | h34
      · rcases Nat.mul_eq_zero.mp h12 with h1 | h2
        · exact Or.inl (Or.inr (no_pos_preds g ht (by omega) (by omega)))
        · exact Or.inr (Or.inr (no_pos_targets g ht (by omega) (by omega)))
      · rcases Nat.mul_eq_zero.mp h34 with h3 | h4
        · exact Or.inr (Or.inl (no_neg_targets g ht (by omega) (by omega)))
        · exact Or.inl (Or.inl (no_neg_preds g ht (by omega) (by omega)))
    next hD => exact absurd h (by simp)
  · intro h
    simp only [kappaVal] at h
    split at h
    next hn =>
      exfalso
      have hcs := counts_sum g ht
      omega
    next hn =>
      split at h
      next hpe =>
        have hnne : ((tpC g + fpC g + fnC g + tnC g : ℕ) : ℝ) ≠ 0 :=
          Nat.cast_ne_zero.mpr hn
        have hXeq : (((tpC g + fpC g) * (tpC g + fnC g)
              + (fnC g + tnC g) * (fpC g + tnC g) : ℕ) : ℝ)
            = ((tpC g + fpC g + fnC g + tnC g : ℕ) : ℝ)
              * ((tpC g + fpC g + fnC g + tnC g : ℕ) : ℝ) := by
          rw [div_eq_iff (mul_ne_zero hnne hnne), one_mul] at hpe
          exact hpe
        have hXnat : (tpC g + fpC g) * (tpC g + fnC g)
            + (fnC g + tnC g) * (fpC g + tnC g)
            = (tpC g + fpC g + fnC g + tnC g) * (tpC g + fpC g + fnC g + tnC g) := by
          exact_mod_cast hXeq
        have hid : (tpC g + fpC g + fnC g + tnC g) * (tpC g + fpC g + fnC g + tnC g)
            = ((tpC g + fpC g) * (tpC g + fnC g) + (fnC g + tnC g) * (fpC g + tnC g))
              + ((tpC g + fpC g) * (fpC g + tnC g)
                + (fnC g + tnC g) * (tpC g + fnC g)) := by
          ring
        have hu : (tpC g + fpC g) * (fpC g + tnC g) = 0 := by omega
        have hw : (fnC g + tnC g) * (tpC g + fnC g) = 0 := by omega
        rcases Nat.mul_eq_zero.mp hu with hab | hbd
        · rcases Nat.mul_eq_zero.mp hw with hcd | hac
          · exfalso
            omega
          · exact Or.inr (no_pos_targets g ht (by omega) (by omega))
        · rcases Nat.mul_eq_zero.mp hw with hcd | hac
          · exact Or.inl (no_neg_targets g ht (by omega) (by omega))
          · exfalso
            omega
      next hpe => exact absurd h (by simp)
  · intro v hv
    rw [precisionVal] at hv
    split at hv
    next => exact absurd hv (by simp)
    next hcond =>
      have hv2 := Option.some_inj.mp hv
      subst hv2
      have hpos : (0 : ℝ) < (tpC g : ℝ) + (fpC g : ℝ) := by
        have := Nat.pos_of_ne_zero hcond
        exact_mod_cast this
      constructor
      · exact div_nonneg (Nat.cast_nonneg _) (le_of_lt hpos)
      · rw [div_le_one hpos]
        linarith [Nat.cast_nonneg (α := ℝ) (fpC g)]
  · intro h
    rw [precisionVal] at h
    split at h
    next hcond => exact Or.inr (no_pos_preds g ht (by omega) (by omega))
    next hcond => exact absurd h (by simp)
  · intro v hv
    rw [recallVal] at hv
    split at hv
    next => exact absurd hv (by simp)
    next hcond =>
      have hv2 := Option.some_inj.mp hv
      subst hv2
      have hpos : (0 : ℝ) < (tpC g : ℝ) + (fnC g : ℝ) := by
        have := Nat.pos_of_ne_zero hcond
        exact_mod_cast this
      constructor
      · exact div_nonneg (Nat.cast_nonneg _) (le_of_lt hpos)
      · rw [div_le_one hpos]
        linarith [Nat.cast_nonneg (α := ℝ) (fnC g)]
  · intro h
    rw [recallVal] at h
    split at h
    next hcond => exact Or.inr (no_pos_targets g ht (by omega) (by omega))
    next hcond => exact absurd h (by simp)
  · intro v hv
    rw [aucVal] at hv
    split at hv
    next => exact absurd hv (by simp)
    next hcond =>
      have hv2 := Option.some_inj.mp hv
      subst hv2
      have hP : 0 < (posPreds g).length := by
        rcases Nat.eq_zero_or_pos (posPreds g).length with h0 | h0
        · exact absurd (by rw [h0]; ring) hcond
        · exact h0
      have hN : 0 < (negPreds g).length := by
        rcases Nat.eq_zero_or_pos (negPreds g).length with h0 | h0
        · exact absurd (by rw [h0]; ring) hcond
        · exact h0
      have hPR : (0 : ℝ) < ((posPreds g).length : ℝ) := by exact_mod_cast hP
      have hNR : (0 : ℝ) < ((negPreds g).length : ℝ) := by exact_mod_cast hN
      constructor
      · exact div_nonneg (pairScoreSum_nonneg _ _)
          (le_of_lt (mul_pos hPR hNR))
      · rw [div_le_one (mul_pos hPR hNR)]
        exact pairScoreSum_le _ _
  · intro h
    rw [aucVal] at h
    split at h
    next hcond =>
      rcases Nat.mul_eq_zero.mp hcond with h0 | h0
      · have := posPreds_length g
        exact Or.inr (no_pos_targets g ht (by omega) (by omega))
      · have := negPreds_length g
        exact Or.inl (no_neg_targets g ht (by omega) (by omega))
    next hcond => exact absurd h (by simp)

/-- Counterexample to claim C8 as stated: in the two-row group `degGroup`
both target classes occur, yet precision is NaN (no thresholded prediction
is positive), so a metric can be NaN without the group holding a single
class only. -/
theorem claim_C8_counterexample :
    (∀ r ∈ degGroup, r.targets = 0 ∨ r.targets = 1)
    ∧ precisionVal degGroup = none
    ∧ ¬ singleTargetClass degGroup := by
  have htp : tpC degGroup = 0 := by
    rw [tpC, degGroup]
    simp only [List.countP_cons, List.countP_nil, decide_eq_true_eq]
    norm_num
  have hfp : fpC degGroup = 0 := by
    rw [fpC, degGroup]
    simp only [List.countP_cons, List.countP_nil, decide_eq_true_eq]
    norm_num
  refine ⟨?_, ?_, ?_⟩
  · intro r hr
    simp only [degGroup, List.mem_cons, List.not_mem_nil, or_false] at hr
    rcases hr with rfl | rfl
    · exact Or.inr rfl
    · exact Or.inl rfl
  · rw [precisionVal, htp, hfp]
    rfl
  · rw [singleTargetClass]
    rintro (h | h)
    · have := h ⟨1, "u1", "eegnet", "A", "w", 0.2, 0⟩ (by simp [degGroup])
      norm_num at this
    · have := h ⟨1, "u1", "eegnet", "A", "w", 0.1, 1⟩ (by simp [degGroup])
      norm_num at this

/-- Witness for the amended claim C8 at the concrete group `degGroup`,
through the mcc NaN case. -/
theorem claim_C8_witness : singlePredClass degGroup ∨ singleTargetClass degGroup :=
  (claim_C8_metric_ranges degGroup (by simp [degGroup])
    (fun r hr => by
      simp only [degGroup, List.mem_cons, List.not_mem_nil, or_false] at hr
      rcases hr with rfl | rfl
      · exact Or.inr rfl
      · exact Or.inl rfl)).2.1
    (by
      have htp : tpC degGroup = 0 := by
        rw [tpC, degGroup]
        simp only [List.countP_cons, List.countP_nil, decide_eq_true_eq]
        norm_num
      have hfp : fpC degGroup = 0 := by
        rw [fpC, degGroup]
        simp only [List.countP_cons, List.countP_nil, decide_eq_true_eq]
        norm_num
      simp only [mccVal, htp, hfp]
      simp)

/-- The four confusion counts are invariant under row permutation. -/
theorem counts_perm (g1 g2 : List Row) (h : List.Perm g1 g2) :
    tpC g1 = tpC g2 ∧ fpC g1 = fpC g2 ∧ fnC g1 = fnC g2 ∧ tnC g1 = tnC g2 :=
  ⟨h.countP_eq _, h.countP_eq _, h.countP_eq _, h.countP_eq _⟩

/-- Precision is invariant under row permutation. -/
theorem precisionVal_perm (g1 g2 : List Row) (h : List.Perm g1 g2) :
    precisionVal g1 = precisionVal g2 := by
  obtain ⟨h1, h2, h3, h4⟩ := counts_perm g1 g2 h
  rw [precisionVal, precisionVal, h1, h2]

/-- Recall is invariant under row permutation. -/
theorem recallVal_perm (g1 g2 : List Row) (h : List.Perm g1 g2) :
    recallVal g1 = recallVal g2 := by
  obtain ⟨h1, h2, h3, h4⟩ := counts_perm g1 g2 h
  rw [recallVal, recallVal, h1, h3]

/-- Cohen's kappa is invariant under row permutation. -/
theorem kappaVal_perm (g1 g2 : List Row) (h : List.Perm g1 g2) :
    kappaVal g1 = kappaVal g2 := by
  obtain ⟨h1, h2, h3, h4⟩ := counts_perm g1 g2 h
  simp only [kappaVal]
  rw [h1, h2, h3, h4]

/-- The Matthews correlation coefficient is invariant under row
permutation. -/
theorem mccVal_perm (g1 g2 : List Row) (h : List.Perm g1 g2) :
    mccVal g1 = mccVal g2 := by
  obtain ⟨h1, h2, h3, h4⟩ := counts_perm g1 g2 h
  simp only [mccVal]
  rw [h1, h2, h3, h4]

/-- The AUROC is invariant under row permutation. -/
theorem aucVal_perm (g1 g2 : List Row) (h : List.Perm g1 g2) :
    aucVal g1 = aucVal g2 := by
  have hpos : List.Perm (posPreds g1) (posPreds g2) := (h.filter _).map _
  have hneg : List.Perm (negPreds g1) (negPreds g2) := (h.filter _).map _
  have hlp : (posPreds g1).length = (posPreds g2).length := hpos.length_eq
  have hln : (negPreds g1).length = (negPreds g2).length := hneg.length_eq
  have hinner : ∀ p : ℝ, ((negPreds g1).map fun q => pairScore p q).sum
      = ((negPreds g2).map fun q => pairScore p q).sum :=
    fun p => (hneg.map _).sum_eq
  have hsum : pairScoreSum (posPreds g1) (negPreds g1)
      = pairScoreSum (posPreds g2) (negPreds g2) := by
    rw [pairScoreSum, pairScoreSum]
    calc ((posPreds g1).map fun p => ((negPreds g1).map fun q => pairScore p q).sum).sum
        = ((posPreds g1).map fun p => ((negPreds g2).map fun q => pairScore p q).sum).sum := by
          rw [List.map_congr_left fun p _ => hinner p]
    _ = ((posPreds g2).map fun p => ((negPreds g2).map fun q => pairScore p q).sum).sum :=
          (hpos.map _).sum_eq
  rw [aucVal, aucVal, hlp, hln, hsum]

/-- The key projection used for sorting is injective. -/
theorem toLex5_injective : Function.Injective toLex5 := by
  intro a b h
  cases a
  cases b
  simp only [toLex5, toLex_inj, Prod.mk.injEq] at h
  obtain ⟨h1, h2, h3, h4, h5⟩ := h
  subst h1
  subst h2
  subst h3
  subst h4
  subst h5
  rfl

instance : IsTrans GroupKey keyLE := ⟨fun _ _ _ h1 h2 => le_trans h1 h2⟩

instance : IsTotal GroupKey keyLE := ⟨fun a b => le_total (toLex5 a) (toLex5 b)⟩

instance : IsAntisymm GroupKey keyLE :=
  ⟨fun _ _ h1 h2 => toLex5_injective (le_antisymm h1 h2)⟩

/-- The sorted distinct group keys depend only on the set of rows, not on
their order. -/
theorem groupKeys_perm (r1 r2 : List Row) (h : List.Perm r1 r2) :
    groupKeys r1 = groupKeys r2 := by
  have hd : List.Perm (r1.map rowKey).dedup (r2.map rowKey).dedup :=
    (h.map _).dedup
  have hp : List.Perm (groupKeys r1) (groupKeys r2) :=
    ((List.perm_insertionSort keyLE _).trans hd).trans
      (List.perm_insertionSort keyLE _).symm
  exact List.eq_of_perm_of_sorted hp (List.sorted_insertionSort keyLE _)
    (List.sorted_insertionSort keyLE _)

/-- The whole merged metrics table depends only on the set of rows. -/
theorem metricsTable_perm (r1 r2 : List Row) (h : List.Perm r1 r2) :
    metricsTable r1 = metricsTable r2 := by
  rw [metricsTable_eq, metricsTable_eq, groupKeys_perm r1 r2 h]
  refine List.map_congr_left ?_
  intro k _
  have hg : List.Perm (groupRows r1 k) (groupRows r2 k) := h.filter _
  rw [mccVal_perm _ _ hg, kappaVal_perm _ _ hg, precisionVal_perm _ _ hg,
    recallVal_perm _ _ hg, aucVal_perm _ _ hg]

/-- Claim C10: `run` is deterministic — its merged metrics table and its
report depend only on the set of loaded files (paths with their tabular
contents), not on the order in which the glob lists them, and no
randomness enters the computation. -/
theorem claim_C10_determinism (files1 files2 : List (String × List Row))
    (hp : List.Perm files1 files2) :
    (run files1).metrics = (run files2).metrics
    ∧ (run files1).report = (run files2).report := by
  cases files1 with
  | nil =>
    have h2 : files2 = [] := hp.symm.eq_nil
    subst h2
    exact ⟨rfl, rfl⟩
  | cons f fs =>
    cases files2 with
    | nil => exact absurd hp.eq_nil (by simp)
    | cons q qs =>
      have hrows : List.Perm (((f :: fs).map fun p => p.2).flatten)
          (((q :: qs).map fun p => p.2).flatten) := (hp.map _).flatten
      have htab : List.Perm (normalize (((f :: fs).map fun p => p.2).flatten))
          (normalize (((q :: qs).map fun p => p.2).flatten)) :=
        hrows.map normalizeRow
      have hmt : metricsTable (normalize (((f :: fs).map fun p => p.2).flatten))
          = metricsTable (normalize (((q :: qs).map fun p => p.2).flatten)) :=
        metricsTable_perm _ _ htab
      constructor <;> simp only [run] <;> rw [hmt]

/-- Witness for claim C10: swapping the two concrete input files leaves
the metrics table and the report unchanged. -/
theorem claim_C10_witness :
    (run [fileA, fileB]).metrics = (run [fileB, fileA]).metrics
    ∧ (run [fileA, fileB]).report = (run [fileB, fileA]).report :=
  claim_C10_determinism [fileA, fileB] [fileB, fileA]
    (List.Perm.swap fileB fileA [])

end GenerateResults
